import Mathlib

/-!
Verification of the WebWorldWind surface-shape editor geometry helpers
(`src/util/editor/BaseSurfaceEditorFragment.js` and
`src/util/editor/ShapeEditorConstants.js`).

The JavaScript is shallowly embedded: numbers become real numbers, the
globe and the great-circle collaborators become explicit function records,
arrays become lists, and the NaN-producing paths of the source (division by
a zero vertex count, reading `latitude` of a ring array) are modelled with
`Option`, `none` standing for a result that is not a real coordinate.
Collaborator code that is absent from this snapshot (`Vec3`, `Angle`,
`Logger`, the great-circle functions of `Location`) is modelled from the
specification; each such definition carries a doc comment saying so.
-/

namespace WorldWind

noncomputable section

/-- Modelled from the spec: the cartesian 3-vector of the geometry
collaborator (`Vec3`), absent from this snapshot. -/
@[ext]
structure Vec3 where
  x : ℝ
  y : ℝ
  z : ℝ

/-- Modelled from the spec: componentwise vector addition (`Vec3.add`). -/
def Vec3.add (a b : Vec3) : Vec3 := ⟨a.x + b.x, a.y + b.y, a.z + b.z⟩

/-- Modelled from the spec: componentwise vector difference (`Vec3.subtract`). -/
def Vec3.subtract (a b : Vec3) : Vec3 := ⟨a.x - b.x, a.y - b.y, a.z - b.z⟩

/-- Modelled from the spec: multiplication of a vector by a scalar
(`Vec3.multiply`). -/
def Vec3.multiply (a : Vec3) (s : ℝ) : Vec3 := ⟨a.x * s, a.y * s, a.z * s⟩

/-- Modelled from the spec: division of a vector by a scalar (`Vec3.divide`). -/
def Vec3.divide (a : Vec3) (s : ℝ) : Vec3 := ⟨a.x / s, a.y / s, a.z / s⟩

/-- Modelled from the spec: the scalar (dot) product of two vectors
(`Vec3.dot`). -/
def Vec3.dot (a b : Vec3) : ℝ := a.x * b.x + a.y * b.y + a.z * b.z

/-- Modelled from the spec: the euclidean length of a vector
(`Vec3.magnitude`). -/
def Vec3.magnitude (a : Vec3) : ℝ := Real.sqrt (a.x * a.x + a.y * a.y + a.z * a.z)

/-- Modelled from the spec: scaling a vector to unit length by dividing it
by its magnitude (`Vec3.normalize`). -/
def Vec3.normalize (a : Vec3) : Vec3 := a.divide a.magnitude

/-- Modelled from the spec: the euclidean distance between two points
(`Vec3.distanceTo`). -/
def Vec3.distanceTo (a b : Vec3) : ℝ := (a.subtract b).magnitude

/-- Modelled from the spec: the point reached from `origin` after travelling
the signed distance `t` along the direction `dir`, i.e. `origin + t * dir`
(`Vec3.fromLine`; the spec states the projected point is "`p1` plus the
parameter times the unit direction"). -/
def Vec3.fromLine (origin : Vec3) (t : ℝ) (dir : Vec3) : Vec3 :=
  ⟨origin.x + t * dir.x, origin.y + t * dir.y, origin.z + t * dir.z⟩

/-- A geographic location: latitude and longitude, in degrees. -/
@[ext]
structure Location where
  latitude : ℝ
  longitude : ℝ

/-- A geographic position: a location together with an altitude. -/
@[ext]
structure Position where
  latitude : ℝ
  longitude : ℝ
  altitude : ℝ

/-- The location part of a position (a `Position` used where only latitude
and longitude are read). -/
def Position.toLocation (p : Position) : Location := ⟨p.latitude, p.longitude⟩

/-- The globe collaborator, abstracted to the three coordinate conversions
and the equatorial radius the editor consumes (spec section 6). -/
structure Globe where
  toPoint : ℝ → ℝ → ℝ → Vec3
  toPointLoc : ℝ → ℝ → Vec3
  fromPoint : Vec3 → Position
  equatorialRadius : ℝ

/-- A globe whose cartesian frame coincides with geographic coordinates;
used to exercise the theorems on concrete inputs. -/
def identityGlobe : Globe :=
  ⟨fun lat lon alt => ⟨lat, lon, alt⟩,
   fun lat lon => ⟨lat, lon, 0⟩,
   fun v => ⟨v.x, v.y, v.z⟩,
   1⟩

/-- nearestPointOnSegment (BaseSurfaceEditorFragment.js, lines 397-414).
The final branch calls `Vec3.fromLine(p1, dot, dir)`, modelled from the
spec as `p1 + dot * dir`. -/
def nearestPointOnSegment (p1 p2 point : Vec3) : Vec3 :=
  let segment := p2.subtract p1
  let dir := segment.normalize
  let dot := (point.subtract p1).dot dir
  if dot < 0 then p1
  else if segment.magnitude < dot then p2
  else Vec3.fromLine p1 dot dir

/-- The squared magnitude of a nonzero vector is positive. -/
lemma Vec3.sumsq_pos (v : Vec3) (h : v ≠ ⟨0, 0, 0⟩) :
    0 < v.x * v.x + v.y * v.y + v.z * v.z := by
  have hnn : (0:ℝ) ≤ v.x * v.x + v.y * v.y + v.z * v.z := by
    have := mul_self_nonneg v.x
    have := mul_self_nonneg v.y
    have := mul_self_nonneg v.z
    linarith
  rcases lt_or_eq_of_le hnn with hlt | heq
  · exact hlt
  · exfalso
    apply h
    have hx : v.x = 0 := by nlinarith [sq_nonneg v.x, sq_nonneg v.y, sq_nonneg v.z]
    have hy : v.y = 0 := by nlinarith [sq_nonneg v.x, sq_nonneg v.y, sq_nonneg v.z]
    have hz : v.z = 0 := by nlinarith [sq_nonneg v.x, sq_nonneg v.y, sq_nonneg v.z]
    ext <;> assumption

/-- A nonzero vector has positive magnitude. -/
lemma Vec3.magnitude_pos (v : Vec3) (h : v ≠ ⟨0, 0, 0⟩) : 0 < v.magnitude :=
  Real.sqrt_pos.mpr (Vec3.sumsq_pos v h)

/-- The difference of two distinct points is not the zero vector. -/
lemma Vec3.subtract_ne_zero (a b : Vec3) (h : a ≠ b) : a.subtract b ≠ ⟨0, 0, 0⟩ := by
  intro hc
  apply h
  have hx := congrArg Vec3.x hc
  have hy := congrArg Vec3.y hc
  have hz := congrArg Vec3.z hc
  simp [Vec3.subtract] at hx hy hz
  ext <;> [linarith; linarith; linarith]

/-- C1. For distinct `p1`, `p2`, `nearestPointOnSegment p1 p2 point` returns
`p1` when the projection parameter (the dot product of `point - p1` with the
segment's unit direction) is negative, `p2` when it exceeds the segment's
length, and otherwise the point `p1 + dot * dir`, which is colinear with and
between `p1` and `p2`. -/
theorem nearestPointOnSegment_spec (p1 p2 point : Vec3) (hne : p1 ≠ p2) :
    ((point.subtract p1).dot (p2.subtract p1).normalize < 0 →
        nearestPointOnSegment p1 p2 point = p1)
  ∧ ((p2.subtract p1).magnitude < (point.subtract p1).dot (p2.subtract p1).normalize →
        nearestPointOnSegment p1 p2 point = p2)
  ∧ (0 ≤ (point.subtract p1).dot (p2.subtract p1).normalize →
      (point.subtract p1).dot (p2.subtract p1).normalize ≤ (p2.subtract p1).magnitude →
        nearestPointOnSegment p1 p2 point
          = Vec3.fromLine p1 ((point.subtract p1).dot (p2.subtract p1).normalize)
              (p2.subtract p1).normalize
      ∧ ∃ t, 0 ≤ t ∧ t ≤ 1 ∧
          nearestPointOnSegment p1 p2 point = p1.add ((p2.subtract p1).multiply t)) := by
  have hmagpos : 0 < (p2.subtract p1).magnitude :=
    Vec3.magnitude_pos _ (Vec3.subtract_ne_zero p2 p1 (fun hc => hne hc.symm))
  refine ⟨fun hneg => ?_, fun hgt => ?_, fun h0 h1 => ?_⟩
  · simp only [nearestPointOnSegment]
    rw [if_pos hneg]
  · simp only [nearestPointOnSegment]
    rw [if_neg (by push_neg; exact le_trans (le_of_lt hmagpos) (le_of_lt hgt)), if_pos hgt]
  · have hres : nearestPointOnSegment p1 p2 point
        = Vec3.fromLine p1 ((point.subtract p1).dot (p2.subtract p1).normalize)
            (p2.subtract p1).normalize := by
      simp only [nearestPointOnSegment]
      rw [if_neg (by push_neg; exact h0), if_neg (by push_neg; exact h1)]
    refine ⟨hres, (point.subtract p1).dot (p2.subtract p1).normalize / (p2.subtract p1).magnitude,
        div_nonneg h0 (le_of_lt hmagpos), (div_le_one hmagpos).mpr h1, ?_⟩
    rw [hres]
    have hm : (p2.subtract p1).magnitude ≠ 0 := ne_of_gt hmagpos
    ext <;>
      simp only [Vec3.fromLine, Vec3.add, Vec3.multiply, Vec3.normalize, Vec3.divide] <;>
      field_simp <;> ring

/-- The C1 theorem applied at a concrete input: the query point lies past
`p2` along the segment from the origin to `(1,0,0)`, so `p2` is returned. -/
theorem nearestPointOnSegment_spec_witness :
    (⟨0, 0, 0⟩ : Vec3) ≠ ⟨1, 0, 0⟩ ∧
      nearestPointOnSegment ⟨0, 0, 0⟩ ⟨1, 0, 0⟩ ⟨2, 0, 0⟩ = ⟨1, 0, 0⟩ := by
  have hne : (⟨0, 0, 0⟩ : Vec3) ≠ ⟨1, 0, 0⟩ := by
    intro h
    have := congrArg Vec3.x h
    norm_num at this
  refine ⟨hne, (nearestPointOnSegment_spec ⟨0, 0, 0⟩ ⟨1, 0, 0⟩ ⟨2, 0, 0⟩ hne).2.1 ?_⟩
  have hmag : (Vec3.subtract ⟨1, 0, 0⟩ ⟨0, 0, 0⟩).magnitude = 1 := by
    simp only [Vec3.subtract, Vec3.magnitude]
    norm_num
  simp only [Vec3.subtract, Vec3.normalize, Vec3.divide, Vec3.dot, Vec3.magnitude]
  norm_num

/-- Modelled from the spec: the degree-to-radian factor of the `Angle`
collaborator (`Angle.DEGREES_TO_RADIANS`), absent from this snapshot. -/
def Angle.DEGREES_TO_RADIANS : ℝ := Real.pi / 180

/-- Modelled from the spec: the radian-to-degree factor of the `Angle`
collaborator (`Angle.RADIANS_TO_DEGREES`), absent from this snapshot. -/
def Angle.RADIANS_TO_DEGREES : ℝ := 180 / Real.pi

/-- Modelled from the spec: the full-turn constant of the `Angle`
collaborator (`Angle.TWO_PI`), absent from this snapshot. -/
def Angle.TWO_PI : ℝ := 2 * Real.pi

/-- Truncation toward zero, as used by the JavaScript `%` operator. -/
def rtrunc (x : ℝ) : ℝ := if 0 ≤ x then (⌊x⌋ : ℝ) else (⌈x⌉ : ℝ)

/-- The JavaScript remainder operator `x % y`: the remainder after dividing
and truncating the quotient toward zero, so the result carries the sign of
the dividend. -/
def jsRem (x y : ℝ) : ℝ := x - y * rtrunc (x / y)

/-- normalizedHeading (BaseSurfaceEditorFragment.js, lines 227-235): adds the
heading and the delta in radians, reduces once by `% TWO_PI` only when the
absolute sum strictly exceeds `TWO_PI`, adds `TWO_PI` if the result is
negative, and converts back to degrees. -/
def normalizedHeading (currentHeading deltaHeading : ℝ) : ℝ :=
  let newHeading := currentHeading * Angle.DEGREES_TO_RADIANS
      + deltaHeading * Angle.DEGREES_TO_RADIANS
  let reduced := if |newHeading| > Angle.TWO_PI then jsRem newHeading Angle.TWO_PI else newHeading
  Angle.RADIANS_TO_DEGREES * (if reduced ≥ 0 then reduced else reduced + Angle.TWO_PI)

/-- The same wrap policy expressed directly over degrees. -/
def degNorm (s : ℝ) : ℝ :=
  let m := if |s| > 360 then jsRem s 360 else s
  if m ≥ 0 then m else m + 360

/-- Working in radians and converting back to degrees cancels: the source's
heading normalization equals the wrap policy applied to the degree sum. -/
lemma normalizedHeading_eq_degNorm (h d : ℝ) :
    normalizedHeading h d = degNorm (h + d) := by
  have hpi : (0:ℝ) < Real.pi := Real.pi_pos
  have hc : (0:ℝ) < Real.pi / 180 := by positivity
  have hkill : ∀ m : ℝ, 180 / Real.pi * (m * (Real.pi / 180)) = m := by
    intro m
    field_simp
    ring
  have hsign : ∀ m : ℝ, (m * (Real.pi / 180) ≥ 0) ↔ (m ≥ 0) := by
    intro m
    constructor
    · intro hnn
      by_contra hneg
      push_neg at hneg
      nlinarith
    · intro hnn
      exact mul_nonneg hnn (le_of_lt hc)
  simp only [normalizedHeading, degNorm, Angle.DEGREES_TO_RADIANS,
    Angle.RADIANS_TO_DEGREES, Angle.TWO_PI]
  have hsum : h * (Real.pi / 180) + d * (Real.pi / 180) = (h + d) * (Real.pi / 180) := by
    ring
  rw [hsum]
  have htp : 2 * Real.pi = 360 * (Real.pi / 180) := by ring
  have habs : |(h + d) * (Real.pi / 180)| = |h + d| * (Real.pi / 180) := by
    rw [abs_mul, abs_of_pos hc]
  have hcond : (|(h + d) * (Real.pi / 180)| > 2 * Real.pi) ↔ (|h + d| > 360) := by
    rw [habs, htp]
    exact mul_lt_mul_right hc
  have hjs : jsRem ((h + d) * (Real.pi / 180)) (2 * Real.pi)
      = jsRem (h + d) 360 * (Real.pi / 180) := by
    simp only [jsRem, htp]
    rw [mul_div_mul_right (h + d) 360 (ne_of_gt hc)]
    ring
  by_cases hgt : |h + d| > 360
  · rw [if_pos (hcond.mpr hgt), if_pos hgt, hjs]
    by_cases hm : jsRem (h + d) 360 ≥ 0
    · rw [if_pos ((hsign _).mpr hm), if_pos hm, hkill]
    · rw [if_neg (fun hcontra => hm ((hsign _).mp hcontra)), if_neg hm, htp]
      have : jsRem (h + d) 360 * (Real.pi / 180) + 360 * (Real.pi / 180)
          = (jsRem (h + d) 360 + 360) * (Real.pi / 180) := by ring
      rw [this, hkill]
  · rw [if_neg (fun hcontra => hgt (hcond.mp hcontra)), if_neg hgt]
    by_cases hm : h + d ≥ 0
    · rw [if_pos ((hsign _).mpr hm), if_pos hm, hkill]
    · rw [if_neg (fun hcontra => hm ((hsign _).mp hcontra)), if_neg hm, htp]
      have : (h + d) * (Real.pi / 180) + 360 * (Real.pi / 180)
          = (h + d + 360) * (Real.pi / 180) := by ring
      rw [this, hkill]

/-- Away from the single input 360, the wrap policy agrees with the
mathematical modulo-360 reduction. -/
lemma degNorm_eq_floor (s : ℝ) (hs : s ≠ 360) :
    degNorm s = s - 360 * ⌊s / 360⌋ := by
  have h360 : (0:ℝ) < 360 := by norm_num
  have hsplit : (360:ℝ) * (s / 360) = s := by field_simp
  simp only [degNorm]
  by_cases hgt : |s| > 360
  · rw [if_pos hgt]
    by_cases hpos : 0 ≤ s
    · -- s > 360: the truncation is the floor and the remainder is nonnegative
      have htr : rtrunc (s / 360) = (⌊s / 360⌋ : ℝ) := by
        simp only [rtrunc]
        rw [if_pos (by positivity)]
      have hfr : jsRem s 360 = 360 * Int.fract (s / 360) := by
        simp only [jsRem, htr, Int.fract]
        rw [mul_sub, hsplit]
      have hnn : jsRem s 360 ≥ 0 := by
        rw [hfr]
        have := Int.fract_nonneg (s / 360)
        linarith
      rw [if_pos hnn]
      simp only [jsRem, htr]
    · -- s < -360: the truncation is the ceiling
      push_neg at hpos
      have htr : rtrunc (s / 360) = (⌈s / 360⌉ : ℝ) := by
        have hneg : ¬ (0 ≤ s / 360) := by
          push_neg
          exact div_neg_of_neg_of_pos hpos h360
        simp only [rtrunc]
        rw [if_neg hneg]
      have hjs : jsRem s 360 = s - 360 * (⌈s / 360⌉ : ℝ) := by
        simp only [jsRem, htr]
      rw [hjs]
      by_cases hzero : s - 360 * (⌈s / 360⌉ : ℝ) ≥ 0
      · -- the remainder is ≤ 0 and ≥ 0, hence 0: s is an exact multiple of 360
        have hle : s ≤ 360 * (⌈s / 360⌉ : ℝ) := by
          have hceil := Int.le_ceil (s / 360)
          calc s = 360 * (s / 360) := hsplit.symm
          _ ≤ 360 * (⌈s / 360⌉ : ℝ) := mul_le_mul_of_nonneg_left hceil (le_of_lt h360)
        have heq0 : s - 360 * (⌈s / 360⌉ : ℝ) = 0 := le_antisymm (by linarith) hzero
        rw [if_pos hzero, heq0]
        have hdiv : s / 360 = ((⌈s / 360⌉ : ℤ) : ℝ) := by
          have hv : s = 360 * (⌈s / 360⌉ : ℝ) := by linarith
          rw [hv]
          field_simp
        have hfl : ⌊s / 360⌋ = ⌈s / 360⌉ := by
          conv_lhs => rw [hdiv]
          exact Int.floor_intCast _
        rw [hfl]
        linarith
      · -- the remainder is strictly negative: the ceiling exceeds the floor by one
        rw [if_neg hzero]
        push_neg at hzero
        have hltc : s / 360 < (⌈s / 360⌉ : ℝ) := by
          rw [lt_iff_le_and_ne]
          refine ⟨Int.le_ceil (s / 360), fun hdiv => ?_⟩
          have hv : s = 360 * (⌈s / 360⌉ : ℝ) := by
            rw [← hdiv, hsplit]
          linarith
        have hfl : ⌈s / 360⌉ = ⌊s / 360⌋ + 1 := by
          have hlow : ⌊s / 360⌋ < ⌈s / 360⌉ := by
            by_contra hcon
            push_neg at hcon
            have h1 := Int.floor_le (s / 360)
            have h2 : (⌈s / 360⌉ : ℝ) ≤ (⌊s / 360⌋ : ℝ) := by exact_mod_cast hcon
            linarith
          have hhigh := Int.ceil_le_floor_add_one (s / 360)
          omega
        rw [hfl]
        push_cast
        ring
  · -- |s| ≤ 360 and s ≠ 360: no reduction is applied
    rw [if_neg hgt]
    push_neg at hgt
    have hub : s ≤ 360 := le_trans (le_abs_self s) hgt
    have hlb : -360 ≤ s := by
      have := neg_abs_le s
      linarith
    by_cases hpos : s ≥ 0
    · have hlt : s < 360 := lt_of_le_of_ne hub hs
      have hfl : ⌊s / 360⌋ = 0 := by
        rw [Int.floor_eq_zero_iff]
        constructor
        · positivity
        · rw [div_lt_one h360]
          exact hlt
      rw [if_pos hpos, hfl]
      norm_num
    · rw [if_neg hpos]
      push_neg at hpos
      have hfl : ⌊s / 360⌋ = -1 := by
        have hle : ((-1 : ℤ) : ℝ) ≤ s / 360 := by
          push_cast
          rw [le_div_iff₀ h360]
          linarith
        have hlt : s / 360 < (-1 : ℤ) + 1 := by
          push_cast
          rw [div_lt_iff₀ h360]
          linarith
        exact Int.floor_eq_iff.mpr ⟨hle, hlt⟩
      rw [hfl]
      push_cast
      ring

/-- Away from the input 360, the wrap policy lands in `[0, 360)`. -/
lemma degNorm_bounds (s : ℝ) (hs : s ≠ 360) :
    0 ≤ degNorm s ∧ degNorm s < 360 := by
  rw [degNorm_eq_floor s hs]
  have hsplit : (360:ℝ) * (s / 360) = s := by field_simp
  have hfr : s - 360 * (⌊s / 360⌋ : ℝ) = 360 * Int.fract (s / 360) := by
    simp only [Int.fract]
    rw [mul_sub, hsplit]
  rw [hfr]
  have h0 := Int.fract_nonneg (s / 360)
  have h1 := Int.fract_lt_one (s / 360)
  constructor <;> nlinarith

/-- At the input 360 the strict comparison with `TWO_PI` fails, no reduction
happens, and the wrap policy returns 360 itself. -/
lemma degNorm_360 : degNorm 360 = 360 := by
  have hng : ¬ (|(360:ℝ)| > 360) := by
    rw [abs_of_nonneg (by norm_num : (0:ℝ) ≤ 360)]
    norm_num
  simp only [degNorm]
  rw [if_neg hng, if_pos (by norm_num : (360:ℝ) ≥ 0)]

/-- C2 counterexample: at heading 360 with delta 0 the radian sum is exactly
`TWO_PI`, the strict `|sum| > TWO_PI` test fails, and the function returns
360 — outside `[0, 360)` and different from `360 mod 360 = 0`. -/
theorem normalizedHeading_counterexample :
    normalizedHeading 360 0 = 360 ∧ ¬ normalizedHeading 360 0 < 360 := by
  have h : normalizedHeading 360 0 = 360 := by
    rw [normalizedHeading_eq_degNorm]
    norm_num [degNorm_360]
  exact ⟨h, by rw [h]; exact lt_irrefl 360⟩

/-- C2 amended. `normalizedHeading` adds the inputs in radians, reduces once
by `% TWO_PI` only when the absolute sum strictly exceeds `TWO_PI`, adds
`TWO_PI` to a negative result, and converts back to degrees; the result lies
in `[0, 360)` whenever `h + d ≠ 360` but equals 360 when `h + d = 360`;
`normalizedHeading h 0` is `h` modulo 360 for every `h ≠ 360`; and
`normalizedHeading 350 20 = 10`, `normalizedHeading 0 (-10) = 350`. -/
theorem normalizedHeading_amended (h d : ℝ) :
    (h + d ≠ 360 → 0 ≤ normalizedHeading h d ∧ normalizedHeading h d < 360)
  ∧ (h + d = 360 → normalizedHeading h d = 360)
  ∧ (h ≠ 360 → normalizedHeading h 0 = h - 360 * ⌊h / 360⌋)
  ∧ normalizedHeading 350 20 = 10
  ∧ normalizedHeading 0 (-10) = 350 := by
  refine ⟨fun hne => ?_, fun heq => ?_, fun hne => ?_, ?_, ?_⟩
  · rw [normalizedHeading_eq_degNorm]
    exact degNorm_bounds _ hne
  · rw [normalizedHeading_eq_degNorm, heq, degNorm_360]
  · rw [normalizedHeading_eq_degNorm]
    rw [show h + 0 = h by ring]
    exact degNorm_eq_floor h hne
  · rw [normalizedHeading_eq_degNorm]
    have h370 : (350:ℝ) + 20 = 370 := by norm_num
    rw [h370, degNorm_eq_floor 370 (by norm_num)]
    have hfl : ⌊(370:ℝ) / 360⌋ = 1 := by
      apply Int.floor_eq_iff.mpr
      constructor <;> push_cast <;> norm_num
    rw [hfl]
    norm_num
  · rw [normalizedHeading_eq_degNorm]
    have hm10 : (0:ℝ) + -10 = -10 := by norm_num
    rw [hm10, degNorm_eq_floor (-10) (by norm_num)]
    have hfl : ⌊(-10:ℝ) / 360⌋ = -1 := by
      apply Int.floor_eq_iff.mpr
      constructor <;> push_cast <;> norm_num
    rw [hfl]
    norm_num

/-- The amended C2 theorem applied at the concrete heading 350 and delta 20,
whose sum is not 360, so the result lies in `[0, 360)`. -/
theorem normalizedHeading_amended_witness :
    0 ≤ normalizedHeading 350 20 ∧ normalizedHeading 350 20 < 360 :=
  (normalizedHeading_amended 350 20).1 (by norm_num)

/-- A shape boundary: either a flat ordered sequence of locations or a
nested sequence of rings (spec section 3). -/
inductive Boundary where
  | flat : List Location → Boundary
  | ringed : List (List Location) → Boundary

/-- Whether a boundary is the nested-rings form. -/
def Boundary.isRinged : Boundary → Bool
  | .flat _ => false
  | .ringed _ => true

/-- The cartesian point of a location at altitude zero
(`globe.computePointFromPosition(lat, lon, 0, new Vec3(0, 0, 0))`). -/
def locPoint (g : Globe) (l : Location) : Vec3 := g.toPoint l.latitude l.longitude 0

/-- The sum of a list of vectors. -/
def vecSum : List Vec3 → Vec3
  | [] => ⟨0, 0, 0⟩
  | v :: rest => v.add (vecSum rest)

/-- The inner accumulation loop of `getCenter`: adds the cartesian point of
every location to the running center and bumps the count. -/
def accumFlat (g : Globe) : List Location → Vec3 × ℕ → Vec3 × ℕ
  | [], acc => acc
  | l :: rest, acc => accumFlat g rest (acc.1.add (locPoint g l), acc.2 + 1)

/-- The outer accumulation loop of `getCenter` over rings. -/
def accumRings (g : Globe) : List (List Location) → Vec3 × ℕ → Vec3 × ℕ
  | [], acc => acc
  | r :: rest, acc => accumRings g rest (accumFlat g r acc)

/-- The accumulation phase of getCenter (BaseSurfaceEditorFragment.js,
lines 246-273): the running cartesian sum and the vertex count.  The ring
branch runs when the boundary's first element is a sequence of length
greater than 2; a ringed boundary that fails this test but has at least two
elements falls into the flat branch, which reads `latitude` of a ring
array — an undefined coordinate, modelled as `none`. -/
def getCenterAccum (g : Globe) : Boundary → Option (Vec3 × ℕ)
  | .ringed (r :: rs) =>
      if 2 < r.length then some (accumRings g (r :: rs) (⟨0, 0, 0⟩, 0))
      else if 2 ≤ (r :: rs).length then none
      else some (⟨0, 0, 0⟩, 0)
  | .ringed [] => some (⟨0, 0, 0⟩, 0)
  | .flat ls =>
      if 2 ≤ ls.length then some (accumFlat g ls (⟨0, 0, 0⟩, 0))
      else some (⟨0, 0, 0⟩, 0)

/-- getCenter (BaseSurfaceEditorFragment.js, lines 246-281): divides the
accumulated sum by the vertex count and converts back to a position.  When
the count is zero the source divides the zero vector by zero and hands NaN
coordinates to `computePositionFromPoint`; that non-real result is modelled
as `none`. -/
def getCenter (g : Globe) (b : Boundary) : Option Position :=
  match getCenterAccum g b with
  | none => none
  | some (c, n) => if n = 0 then none else some (g.fromPoint (c.divide n))

/-- Vector addition is associative. -/
lemma Vec3.add_assoc (a b c : Vec3) : (a.add b).add c = a.add (b.add c) := by
  ext <;> simp [Vec3.add] <;> ring

/-- The zero vector is a left unit for addition. -/
lemma Vec3.zero_add (v : Vec3) : (⟨0, 0, 0⟩ : Vec3).add v = v := by
  ext <;> simp [Vec3.add]

/-- Summing over a concatenation splits into two sums. -/
lemma vecSum_append (a b : List Vec3) :
    vecSum (a ++ b) = (vecSum a).add (vecSum b) := by
  induction a with
  | nil => simp [vecSum, Vec3.zero_add]
  | cons v rest ih => simp [vecSum, ih, Vec3.add_assoc]

/-- The inner loop of `getCenter` adds the sum of the points and the number
of the locations to the accumulator. -/
lemma accumFlat_spec (g : Globe) (ls : List Location) (v : Vec3) (n : ℕ) :
    accumFlat g ls (v, n) = (v.add (vecSum (ls.map (locPoint g))), n + ls.length) := by
  induction ls generalizing v n with
  | nil => simp [accumFlat, vecSum]; ext <;> simp [Vec3.add]
  | cons l rest ih =>
    simp only [accumFlat, ih, List.map_cons, vecSum, List.length_cons, Prod.mk.injEq]
    constructor
    · rw [Vec3.add_assoc]
    · omega

/-- The outer loop of `getCenter` adds the sum of the points and the number
of the vertices of every ring to the accumulator. -/
lemma accumRings_spec (g : Globe) (rss : List (List Location)) (v : Vec3) (n : ℕ) :
    accumRings g rss (v, n)
      = (v.add (vecSum (rss.flatten.map (locPoint g))), n + rss.flatten.length) := by
  induction rss generalizing v n with
  | nil => simp [accumRings, vecSum]; ext <;> simp [Vec3.add]
  | cons r rest ih =>
    simp only [accumRings, accumFlat_spec, ih, List.flatten_cons, List.map_append,
      List.length_append, vecSum_append, Vec3.add_assoc, Prod.mk.injEq]
    constructor
    · trivial
    · omega

/-- C5 counterexample: the flat single-location boundary `[(1, 1)]` is
non-empty, yet `getCenter` accumulates no vertex at all (the flat branch
requires at least two locations) and divides the zero vector by a zero
count instead of returning the average of the single vertex. -/
theorem getCenter_counterexample :
    getCenter identityGlobe (Boundary.flat [⟨1, 1⟩]) = none ∧
      getCenter identityGlobe (Boundary.flat [⟨1, 1⟩])
        ≠ some (identityGlobe.fromPoint
            ((vecSum ([(⟨1, 1⟩ : Location)].map (locPoint identityGlobe))).divide
              ([(⟨1, 1⟩ : Location)].length : ℝ))) := by
  have h : getCenter identityGlobe (Boundary.flat [⟨1, 1⟩]) = none := by
    simp [getCenter, getCenterAccum]
  exact ⟨h, by rw [h]; simp⟩

/-- C5 amended. For a flat boundary with at least two locations `getCenter`
accumulates the cartesian point of every vertex and returns the averaged
point converted back to a position; for a ringed boundary — recognized, per
the source's runtime disambiguation, by its first ring having more than two
vertices — it accumulates every vertex of every ring, so all ring vertices
influence the result; a flat single-location boundary instead hits the
division-by-zero path. -/
theorem getCenter_amended (g : Globe) :
    (∀ ls : List Location, 2 ≤ ls.length →
        getCenter g (Boundary.flat ls)
          = some (g.fromPoint ((vecSum (ls.map (locPoint g))).divide ls.length)))
  ∧ (∀ (r : List Location) (rs : List (List Location)), 2 < r.length →
        getCenter g (Boundary.ringed (r :: rs))
          = some (g.fromPoint
              ((vecSum ((r :: rs).flatten.map (locPoint g))).divide
                ((r :: rs).flatten.length : ℝ)))) := by
  constructor
  · intro ls hlen
    simp only [getCenter, getCenterAccum, if_pos hlen, accumFlat_spec, Vec3.zero_add,
      Nat.zero_add]
    rw [if_neg (by omega)]
  · intro r rs hlen
    simp only [getCenter, getCenterAccum, if_pos hlen, accumRings_spec, Vec3.zero_add,
      Nat.zero_add]
    have hne : ¬ ((r :: rs).flatten.length = 0) := by
      simp only [List.flatten_cons, List.length_append]
      omega
    rw [if_neg hne]

/-- The amended C5 theorem applied to a square's four corners on the
identity globe: the center is the square's geometric centroid. -/
theorem getCenter_amended_witness :
    getCenter identityGlobe
        (Boundary.flat [⟨0, 0⟩, ⟨0, 1⟩, ⟨1, 1⟩, ⟨1, 0⟩])
      = some ⟨1/2, 1/2, 0⟩ := by
  have h := (getCenter_amended identityGlobe).1 [⟨0, 0⟩, ⟨0, 1⟩, ⟨1, 1⟩, ⟨1, 0⟩]
    (by simp)
  rw [h]
  simp only [identityGlobe, locPoint, vecSum, Vec3.add, Vec3.divide, List.map_cons,
    List.map_nil, List.length_cons, List.length_nil]
  norm_num

/-- C10. `getCenter` divides by a zero vertex count not only for an empty
flat boundary but for every flat boundary with exactly one location: the
flat branch requires at least two elements, so the single location
contributes no vertex, the accumulator stays at the zero vector with count
zero, and the division produces the non-real (`none`) center. -/
theorem getCenter_singleton_divides_by_zero (g : Globe) (l : Location) :
    getCenterAccum g (Boundary.flat [l]) = some (⟨0, 0, 0⟩, 0)
  ∧ getCenter g (Boundary.flat [l]) = none
  ∧ getCenterAccum g (Boundary.flat []) = some (⟨0, 0, 0⟩, 0)
  ∧ getCenter g (Boundary.flat []) = none := by
  refine ⟨?_, ?_, ?_, ?_⟩ <;> simp [getCenter, getCenterAccum]

/-- getAverageDistance (BaseSurfaceEditorFragment.js, lines 290-309): each
per-vertex distance is divided by the count as it is accumulated, and an
explicit zero-count guard returns 0 for an empty list. -/
def getAverageDistance (g : Globe) (center : Location) (locations : List Location) : ℝ :=
  let count := locations.length
  let centerPoint := g.toPointLoc center.latitude center.longitude
  let totalDistance := locations.foldl
    (fun acc l => acc + (g.toPointLoc l.latitude l.longitude).distanceTo centerPoint / count) 0
  if count = 0 then 0 else totalDistance / g.equatorialRadius

/-- Folding `acc + f x / c` over a list starting from `a` yields `a` plus
the sum of the mapped values divided by `c`. -/
lemma foldl_add_div {α : Type} (f : α → ℝ) (c : ℝ) (l : List α) (a : ℝ) :
    l.foldl (fun acc x => acc + f x / c) a = a + (l.map f).sum / c := by
  induction l generalizing a with
  | nil => simp
  | cons x rest ih =>
    simp only [List.foldl_cons, ih, List.map_cons, List.sum_cons, add_div]
    ring

/-- C6. `getAverageDistance` returns the mean of the per-vertex cartesian
distances from each location's globe point to the center's globe point,
divided by the globe's equatorial radius, and returns exactly 0 for an
empty list through its explicit zero-count guard. -/
theorem getAverageDistance_spec (g : Globe) (center : Location)
    (locations : List Location) :
    getAverageDistance g center locations =
      if locations.length = 0 then 0
      else ((locations.map (fun l =>
          (g.toPointLoc l.latitude l.longitude).distanceTo
            (g.toPointLoc center.latitude center.longitude))).sum
            / locations.length) / g.equatorialRadius := by
  simp only [getAverageDistance, foldl_add_div, zero_add]

/-- A heap of `Location` objects: JavaScript `Location`s are mutable
reference cells, so object identity is modelled by an allocation counter
and a memory map from references to values. -/
structure Store where
  next : ℕ
  mem : ℕ → Location

/-- Allocating `new Location(v)`: the value is placed at the next free
reference. -/
def Store.alloc (s : Store) (v : Location) : Store × ℕ :=
  (⟨s.next + 1, fun n => if n = s.next then v else s.mem n⟩, s.next)

/-- Mutating the object behind reference `r` to hold the value `v`. -/
def Store.write (s : Store) (r : ℕ) (v : Location) : Store :=
  ⟨s.next, fun n => if n = r then v else s.mem n⟩

/-- A boundary as the editor holds it at runtime: lists of references to
`Location` objects, flat or ring-structured. -/
inductive RefBoundary where
  | flat : List ℕ → RefBoundary
  | ringed : List (List ℕ) → RefBoundary

/-- All references reachable from a boundary. -/
def RefBoundary.refs : RefBoundary → List ℕ
  | .flat rs => rs
  | .ringed rr => rr.flatten

/-- Whether a reference boundary is the nested-rings form. -/
def RefBoundary.isRinged : RefBoundary → Bool
  | .flat _ => false
  | .ringed _ => true

/-- A runtime boundary is well formed when the source's duck-typing test
can classify it: a ringed boundary must have a first ring with more than
two vertices (spec section 3 defines ring-ness by exactly this test). -/
def RefBoundary.WF : RefBoundary → Prop
  | .flat _ => True
  | .ringed (r :: _) => 2 < r.length
  | .ringed [] => False

/-- The value-level boundary a reference boundary denotes in a store. -/
def readB (s : Store) : RefBoundary → Boundary
  | .flat rs => .flat (rs.map s.mem)
  | .ringed rr => .ringed (rr.map (fun r => r.map s.mem))

/-- The flat copying loop of `deepCopyLocations`: allocates
`new Location(loc.latitude, loc.longitude)` for each location in order. -/
def copyFlat (s : Store) : List ℕ → Store × List ℕ
  | [] => (s, [])
  | r :: rest =>
      let p := s.alloc (s.mem r)
      let q := copyFlat p.1 rest
      (q.1, p.2 :: q.2)

/-- The ring copying loop of `deepCopyLocations`: copies each ring in order. -/
def copyRings (s : Store) : List (List ℕ) → Store × List (List ℕ)
  | [] => (s, [])
  | ring :: rest =>
      let p := copyFlat s ring
      let q := copyRings p.1 rest
      (q.1, p.2 :: q.2)

/-- deepCopyLocations (BaseSurfaceEditorFragment.js, lines 377-395).  The
ring branch runs when the first element is a sequence of length greater
than 2; a ringed value that fails the test falls into the flat loop, which
reads `latitude` of a ring array — an undefined coordinate, modelled as
`none`.  An empty input produces an empty flat copy. -/
def deepCopyLocations (s : Store) : RefBoundary → Option (Store × RefBoundary)
  | .ringed (r :: rs) =>
      if 2 < r.length then
        some ((copyRings s (r :: rs)).1, .ringed (copyRings s (r :: rs)).2)
      else none
  | .ringed [] => some (s, .flat [])
  | .flat ls => some ((copyFlat s ls).1, .flat (copyFlat s ls).2)

/-- Copying only allocates: the allocation counter never decreases. -/
lemma copyFlat_next (rs : List ℕ) : ∀ s : Store, s.next ≤ (copyFlat s rs).1.next := by
  induction rs with
  | nil => intro s; simp [copyFlat]
  | cons r rest ih =>
    intro s
    have h := ih (s.alloc (s.mem r)).1
    have hstep : s.next ≤ (s.alloc (s.mem r)).1.next := Nat.le_succ s.next
    simp only [copyFlat]
    exact le_trans hstep h

/-- Copying never touches the memory below the starting allocation counter. -/
lemma copyFlat_mem_lt (rs : List ℕ) :
    ∀ s : Store, ∀ n < s.next, (copyFlat s rs).1.mem n = s.mem n := by
  induction rs with
  | nil => intro s n _; simp [copyFlat]
  | cons r rest ih =>
    intro s n hn
    simp only [copyFlat]
    rw [ih _ n (lt_trans hn (Nat.lt_succ_self s.next))]
    simp only [Store.alloc]
    rw [if_neg (Nat.ne_of_lt hn)]

/-- Every reference produced by the flat copy is fresh: at or above the
starting counter and below the final one. -/
lemma copyFlat_refs_range (rs : List ℕ) :
    ∀ s : Store, ∀ q ∈ (copyFlat s rs).2, s.next ≤ q ∧ q < (copyFlat s rs).1.next := by
  induction rs with
  | nil => intro s q hq; simp [copyFlat] at hq
  | cons r rest ih =>
    intro s q hq
    simp only [copyFlat, List.mem_cons] at hq
    rcases hq with hq | hq
    · subst hq
      have hfresh : (s.alloc (s.mem r)).2 = s.next := rfl
      rw [hfresh]
      refine ⟨le_refl _, ?_⟩
      have hlt : s.next < (s.alloc (s.mem r)).1.next := Nat.lt_succ_self s.next
      exact lt_of_lt_of_le hlt (copyFlat_next rest (s.alloc (s.mem r)).1)
    · have h := ih (s.alloc (s.mem r)).1 q hq
      have hstep : s.next ≤ (s.alloc (s.mem r)).1.next := Nat.le_succ s.next
      exact ⟨le_trans hstep h.1, h.2⟩

/-- The values behind the copied references, read in the final store, are
exactly the values behind the source references in the starting store. -/
lemma copyFlat_read (rs : List ℕ) :
    ∀ s : Store, (∀ q ∈ rs, q < s.next) →
      (copyFlat s rs).2.map (copyFlat s rs).1.mem = rs.map s.mem := by
  induction rs with
  | nil => intro s _; simp [copyFlat]
  | cons r rest ih =>
    intro s hb
    have hr : r < s.next := hb r (List.mem_cons_self r rest)
    have hlt : s.next < (s.alloc (s.mem r)).1.next := Nat.lt_succ_self s.next
    have hrest : ∀ q ∈ rest, q < (s.alloc (s.mem r)).1.next :=
      fun q hq => lt_trans (hb q (List.mem_cons_of_mem r hq)) hlt
    simp only [copyFlat, List.map_cons]
    rw [List.cons_eq_cons]
    constructor
    · have hfresh : (s.alloc (s.mem r)).2 = s.next := rfl
      rw [hfresh, copyFlat_mem_lt rest (s.alloc (s.mem r)).1 s.next hlt]
      simp [Store.alloc]
    · rw [ih (s.alloc (s.mem r)).1 hrest]
      exact List.map_congr_left (fun q hq => by
        simp only [Store.alloc]
        rw [if_neg (Nat.ne_of_lt (hb q (List.mem_cons_of_mem r hq)))])

/-- Ring copying only allocates: the allocation counter never decreases. -/
lemma copyRings_next (rr : List (List ℕ)) :
    ∀ s : Store, s.next ≤ (copyRings s rr).1.next := by
  induction rr with
  | nil => intro s; simp [copyRings]
  | cons ring rest ih =>
    intro s
    have h := ih (copyFlat s ring).1
    simp only [copyRings]
    exact le_trans (copyFlat_next ring s) h

/-- Ring copying never touches the memory below the starting counter. -/
lemma copyRings_mem_lt (rr : List (List ℕ)) :
    ∀ s : Store, ∀ n < s.next, (copyRings s rr).1.mem n = s.mem n := by
  induction rr with
  | nil => intro s n _; simp [copyRings]
  | cons ring rest ih =>
    intro s n hn
    simp only [copyRings]
    rw [ih (copyFlat s ring).1 n (lt_of_lt_of_le hn (copyFlat_next ring s))]
    exact copyFlat_mem_lt ring s n hn

/-- Every reference produced by the ring copy is fresh. -/
lemma copyRings_refs_range (rr : List (List ℕ)) :
    ∀ s : Store, ∀ q ∈ (copyRings s rr).2.flatten,
      s.next ≤ q ∧ q < (copyRings s rr).1.next := by
  induction rr with
  | nil => intro s q hq; simp [copyRings] at hq
  | cons ring rest ih =>
    intro s q hq
    simp only [copyRings, List.flatten_cons, List.mem_append] at hq
    rcases hq with hq | hq
    · have h := copyFlat_refs_range ring s q hq
      exact ⟨h.1, lt_of_lt_of_le h.2 (copyRings_next rest (copyFlat s ring).1)⟩
    · have h := ih (copyFlat s ring).1 q hq
      exact ⟨le_trans (copyFlat_next ring s) h.1, h.2⟩

/-- The values behind the ring-copied references, read in the final store,
are exactly the values behind the source references in the starting store. -/
lemma copyRings_read (rr : List (List ℕ)) :
    ∀ s : Store, (∀ q ∈ rr.flatten, q < s.next) →
      (copyRings s rr).2.map (fun ring => ring.map (copyRings s rr).1.mem)
        = rr.map (fun ring => ring.map s.mem) := by
  induction rr with
  | nil => intro s _; simp [copyRings]
  | cons ring rest ih =>
    intro s hb
    have hring : ∀ q ∈ ring, q < s.next := fun q hq =>
      hb q (by simp only [List.flatten_cons, List.mem_append]; exact Or.inl hq)
    have hrest : ∀ q ∈ rest.flatten, q < (copyFlat s ring).1.next := fun q hq =>
      lt_of_lt_of_le
        (hb q (by simp only [List.flatten_cons, List.mem_append]; exact Or.inr hq))
        (copyFlat_next ring s)
    simp only [copyRings, List.map_cons]
    rw [List.cons_eq_cons]
    constructor
    · -- the first copied ring read through the final store
      have hagree : ∀ q ∈ (copyFlat s ring).2,
          (copyRings (copyFlat s ring).1 rest).1.mem q = (copyFlat s ring).1.mem q :=
        fun q hq =>
          copyRings_mem_lt rest (copyFlat s ring).1 q (copyFlat_refs_range ring s q hq).2
      rw [List.map_congr_left hagree]
      exact copyFlat_read ring s hring
    · rw [ih (copyFlat s ring).1 hrest]
      exact List.map_congr_left (fun ring2 hring2 => List.map_congr_left (fun q hq => by
        exact copyFlat_mem_lt ring s q (hb q (by
          simp only [List.flatten_cons, List.mem_append]
          exact Or.inr (List.mem_flatten.mpr ⟨ring2, hring2, hq⟩)))))

/-- Two stores that agree on every reference of a boundary denote the same
value boundary. -/
lemma readB_congr (s s2 : Store) (b : RefBoundary)
    (hag : ∀ q ∈ b.refs, s2.mem q = s.mem q) : readB s2 b = readB s b := by
  cases b with
  | flat rs =>
    simp only [readB, RefBoundary.refs] at hag ⊢
    rw [List.map_congr_left hag]
  | ringed rr =>
    simp only [readB, RefBoundary.refs] at hag ⊢
    rw [List.map_congr_left (fun ring hring => List.map_congr_left (fun q hq =>
      hag q (List.mem_flatten.mpr ⟨ring, hring, hq⟩)))]

/-- Writing to a reference that a boundary does not contain leaves the
boundary's denoted value unchanged. -/
lemma readB_write_of_not_mem (s : Store) (b : RefBoundary) (r : ℕ) (v : Location)
    (h : r ∉ b.refs) : readB (s.write r v) b = readB s b :=
  readB_congr s (s.write r v) b (fun q hq => by
    simp only [Store.write]
    have hqr : q ≠ r := fun heq => h (heq ▸ hq)
    rw [if_neg hqr])

/-- C7. For a well-formed boundary whose references live in the store,
`deepCopyLocations` succeeds and returns a copy that preserves the
ring-vs-flat distinction, denotes element-wise equal values, leaves the
original's values untouched, shares no reference with the original, and is
independent under mutation: writing through any reference of the copy
leaves the original's value unchanged, and writing through any reference
of the original leaves the copy's value unchanged. -/
theorem deepCopyLocations_spec (s : Store) (b : RefBoundary)
    (hwf : b.WF) (hbound : ∀ r ∈ b.refs, r < s.next) :
    ∃ s2 b2, deepCopyLocations s b = some (s2, b2)
      ∧ b2.isRinged = b.isRinged
      ∧ readB s2 b2 = readB s b
      ∧ readB s2 b = readB s b
      ∧ (∀ r ∈ b2.refs, r ∉ b.refs)
      ∧ (∀ r v, r ∈ b2.refs → readB (s2.write r v) b = readB s2 b)
      ∧ (∀ r v, r ∈ b.refs → readB (s2.write r v) b2 = readB s2 b2) := by
  cases b with
  | flat ls =>
    simp only [RefBoundary.refs] at hbound
    refine ⟨(copyFlat s ls).1, .flat (copyFlat s ls).2, rfl, rfl, ?_, ?_, ?_, ?_, ?_⟩
    · simp only [readB]
      rw [copyFlat_read ls s hbound]
    · exact readB_congr s (copyFlat s ls).1 (.flat ls)
        (fun q hq => copyFlat_mem_lt ls s q (hbound q hq))
    · intro r hr hrb
      simp only [RefBoundary.refs] at hr
      exact absurd (hbound r hrb) (not_lt.mpr (copyFlat_refs_range ls s r hr).1)
    · intro r v hr
      apply readB_write_of_not_mem
      simp only [RefBoundary.refs] at hr ⊢
      intro hrb
      exact absurd (hbound r hrb) (not_lt.mpr (copyFlat_refs_range ls s r hr).1)
    · intro r v hr
      apply readB_write_of_not_mem
      simp only [RefBoundary.refs] at hr ⊢
      intro hrb
      exact absurd (hbound r hr) (not_lt.mpr (copyFlat_refs_range ls s r hrb).1)
  | ringed rr =>
    cases rr with
    | nil => exact absurd hwf (by simp [RefBoundary.WF])
    | cons ring rest =>
      have hlen : 2 < ring.length := hwf
      simp only [RefBoundary.refs] at hbound
      refine ⟨(copyRings s (ring :: rest)).1, .ringed (copyRings s (ring :: rest)).2,
        by simp only [deepCopyLocations]; rw [if_pos hlen], rfl, ?_, ?_, ?_, ?_, ?_⟩
      · simp only [readB]
        rw [copyRings_read (ring :: rest) s hbound]
      · exact readB_congr s (copyRings s (ring :: rest)).1 (.ringed (ring :: rest))
          (fun q hq => copyRings_mem_lt (ring :: rest) s q (hbound q hq))
      · intro r hr hrb
        simp only [RefBoundary.refs] at hr
        exact absurd (hbound r hrb)
          (not_lt.mpr (copyRings_refs_range (ring :: rest) s r hr).1)
      · intro r v hr
        apply readB_write_of_not_mem
        simp only [RefBoundary.refs] at hr ⊢
        intro hrb
        exact absurd (hbound r hrb)
          (not_lt.mpr (copyRings_refs_range (ring :: rest) s r hr).1)
      · intro r v hr
        apply readB_write_of_not_mem
        simp only [RefBoundary.refs] at hr ⊢
        intro hrb
        exact absurd (hbound r hr)
          (not_lt.mpr (copyRings_refs_range (ring :: rest) s r hrb).1)

/-- A two-object store used to exercise the deep-copy theorem. -/
def sampleStore : Store :=
  ⟨2, fun n => if n = 0 then ⟨1, 2⟩ else ⟨3, 4⟩⟩

/-- The C7 theorem applied to a concrete two-location flat boundary in a
concrete store. -/
theorem deepCopyLocations_spec_witness :
    ∃ s2 b2, deepCopyLocations sampleStore (RefBoundary.flat [0, 1]) = some (s2, b2)
      ∧ readB s2 b2 = readB sampleStore (RefBoundary.flat [0, 1])
      ∧ (∀ r v, r ∈ b2.refs → readB (s2.write r v) (RefBoundary.flat [0, 1])
          = readB s2 (RefBoundary.flat [0, 1])) := by
  obtain ⟨s2, b2, h1, _, h3, _, _, h6, _⟩ :=
    deepCopyLocations_spec sampleStore (RefBoundary.flat [0, 1]) trivial
      (by
        intro r hr
        simp only [RefBoundary.refs, List.mem_cons, List.not_mem_nil, or_false] at hr
        rcases hr with hr | hr <;> simp [hr, sampleStore])
  exact ⟨s2, b2, h1, h3, fun r v hr => h6 r v hr⟩

/-- Modelled from the spec: the severity levels of the `Logger`
collaborator, absent from this snapshot; the abstract methods log at the
severe level. -/
inductive LogLevel where
  | severe
  | warning
  | info

/-- A diagnostic record: the level, class, method, and message handed to
`Logger.logMessage`. -/
structure LogEntry where
  level : LogLevel
  className : String
  methodName : String
  message : String

/-- Modelled from the spec: `Logger.logMessage` logs a diagnostic and
returns it so it can be wrapped in the thrown error; absent from this
snapshot. -/
def Logger.logMessage (level : LogLevel) (className methodName message : String) : LogEntry :=
  ⟨level, className, methodName, message⟩

/-- The failure thrown by the abstract methods of the base fragment: an
`UnsupportedOperationError` carrying the logged diagnostic. -/
inductive EditorFailure where
  | unsupportedOperation : LogEntry → EditorFailure

/-- canHandle (BaseSurfaceEditorFragment.js, lines 51-58): unconditionally
throws an unsupported-operation error after logging a severe diagnostic. -/
def canHandle {Shape : Type} (shape : Shape) : Except EditorFailure Bool :=
  .error (.unsupportedOperation (Logger.logMessage .severe
    "BaseSurfaceEditorFragment" "canHandle" "abstractInvocation"))

/-- createShadowShape (BaseSurfaceEditorFragment.js, lines 69-76). -/
def createShadowShape {Shape : Type} (shape : Shape) : Except EditorFailure Shape :=
  .error (.unsupportedOperation (Logger.logMessage .severe
    "BaseSurfaceEditorFragment" "createShadowShape" "abstractInvocation"))

/-- getShapeCenter (BaseSurfaceEditorFragment.js, lines 85-92). -/
def getShapeCenter {Shape GlobeT : Type} (shape : Shape) (globe : GlobeT) :
    Except EditorFailure Location :=
  .error (.unsupportedOperation (Logger.logMessage .severe
    "BaseSurfaceEditorFragment" "getShapeCenter" "abstractInvocation"))

/-- initializeControlElements (BaseSurfaceEditorFragment.js, lines 110-122). -/
def initializeControlElements {Shape CP Acc Attr : Type} (shape : Shape)
    (controlPoints : CP) (accessories : Acc)
    (resizeControlPointAttributes rotateControlPointAttributes
      moveControlPointAttributes : Attr) : Except EditorFailure Unit :=
  .error (.unsupportedOperation (Logger.logMessage .severe
    "BaseSurfaceEditorFragment" "initializeControlElements" "abstractInvocation"))

/-- updateControlElements (BaseSurfaceEditorFragment.js, lines 132-142). -/
def updateControlElements {Shape GlobeT CP Acc : Type} (shape : Shape) (globe : GlobeT)
    (controlPoints : CP) (accessories : Acc) : Except EditorFailure Unit :=
  .error (.unsupportedOperation (Logger.logMessage .severe
    "BaseSurfaceEditorFragment" "updateControlElements" "abstractInvocation"))

/-- reshape (BaseSurfaceEditorFragment.js, lines 156-168). -/
def reshape {Shape GlobeT CP : Type} (shape : Shape) (globe : GlobeT)
    (controlPoint : CP) (currentPosition previousPosition : Position)
    (secondaryBehavior : Bool) : Except EditorFailure Unit :=
  .error (.unsupportedOperation (Logger.logMessage .severe
    "BaseSurfaceEditorFragment" "reshape" "abstractInvocation"))

/-- C8. Each of the six contract methods, invoked directly on the base
fragment with any arguments, throws an unsupported-operation failure
carrying a severe-level diagnostic; being modelled as pure `Except`
values that are always `error`, they never return a result and touch no
state. -/
theorem abstractMethods_throw :
    (∀ (Shape : Type) (shape : Shape),
        canHandle shape = Except.error (.unsupportedOperation
          ⟨LogLevel.severe, "BaseSurfaceEditorFragment", "canHandle", "abstractInvocation"⟩))
  ∧ (∀ (Shape : Type) (shape : Shape),
        createShadowShape shape = Except.error (.unsupportedOperation
          ⟨LogLevel.severe, "BaseSurfaceEditorFragment", "createShadowShape",
            "abstractInvocation"⟩))
  ∧ (∀ (Shape GlobeT : Type) (shape : Shape) (globe : GlobeT),
        getShapeCenter shape globe = Except.error (.unsupportedOperation
          ⟨LogLevel.severe, "BaseSurfaceEditorFragment", "getShapeCenter",
            "abstractInvocation"⟩))
  ∧ (∀ (Shape CP Acc Attr : Type) (shape : Shape) (cps : CP) (acc : Acc)
        (resizeAttrs rotateAttrs moveAttrs : Attr),
        initializeControlElements shape cps acc resizeAttrs rotateAttrs moveAttrs
          = Except.error (.unsupportedOperation
            ⟨LogLevel.severe, "BaseSurfaceEditorFragment", "initializeControlElements",
              "abstractInvocation"⟩))
  ∧ (∀ (Shape GlobeT CP Acc : Type) (shape : Shape) (globe : GlobeT) (cps : CP) (acc : Acc),
        updateControlElements shape globe cps acc = Except.error (.unsupportedOperation
          ⟨LogLevel.severe, "BaseSurfaceEditorFragment", "updateControlElements",
            "abstractInvocation"⟩))
  ∧ (∀ (Shape GlobeT CP : Type) (shape : Shape) (globe : GlobeT) (cp : CP)
        (currentPosition previousPosition : Position) (secondaryBehavior : Bool),
        reshape shape globe cp currentPosition previousPosition secondaryBehavior
          = Except.error (.unsupportedOperation
            ⟨LogLevel.severe, "BaseSurfaceEditorFragment", "reshape",
              "abstractInvocation"⟩)) := by
  refine ⟨?_, ?_, ?_, ?_, ?_, ?_⟩ <;> intros <;> rfl

/-- ShapeEditorConstants (ShapeEditorConstants.js): the string tags for the
six control-point purposes. -/
def ShapeEditorConstants.LOCATION : String := "location"

/-- Indicates a control point controlling the rotation of a shape. -/
def ShapeEditorConstants.ROTATION : String := "rotation"

/-- Indicates a control point controlling the width of a shape. -/
def ShapeEditorConstants.WIDTH : String := "width"

/-- Indicates a control point controlling the height of a shape. -/
def ShapeEditorConstants.HEIGHT : String := "height"

/-- Indicates a control point controlling the radius of a shape. -/
def ShapeEditorConstants.RADIUS : String := "radius"

/-- Indicates that an entire shape is being dragged. -/
def ShapeEditorConstants.DRAG : String := "drag"

/-- The altitude mode of a renderable; the control points are clamped to
the ground (`WorldWind.CLAMP_TO_GROUND`). -/
inductive AltitudeMode where
  | clampToGround
  | absolute

/-- The user-properties bag of a placemark, holding the purpose tag and the
optional boundary index. -/
structure UserProperties where
  purpose : Option String
  index : Option ℕ

/-- The point-marker renderable used for control points, abstracted over
the attribute bundle type. -/
structure Placemark (Attr : Type) where
  position : Location
  eyeDistanceScaling : Bool
  attributes : Attr
  altitudeMode : AltitudeMode
  userProperties : UserProperties

/-- createControlPoint (BaseSurfaceEditorFragment.js, lines 171-183): builds
a placemark at `(0, 0)`, clamps it to the ground, tags it with the purpose
and the optional index, and pushes it onto the control-point array. -/
def createControlPoint {Attr : Type} (controlPoints : List (Placemark Attr))
    (attributes : Attr) (purpose : String) (index : Option ℕ) : List (Placemark Attr) :=
  controlPoints ++ [⟨⟨0, 0⟩, false, attributes, .clampToGround, ⟨some purpose, index⟩⟩]

/-- C9. `createControlPoint` appends exactly one placemark to the array;
the new placemark is clamped to the ground, sits at location `(0, 0)`,
carries the given purpose — one of the six `ShapeEditorConstants` tags —
and carries an index in its user properties if and only if an index was
supplied. -/
theorem createControlPoint_spec {Attr : Type} (controlPoints : List (Placemark Attr))
    (attributes : Attr) (purpose : String) (index : Option ℕ)
    (hp : purpose = ShapeEditorConstants.LOCATION ∨ purpose = ShapeEditorConstants.ROTATION
        ∨ purpose = ShapeEditorConstants.WIDTH ∨ purpose = ShapeEditorConstants.HEIGHT
        ∨ purpose = ShapeEditorConstants.RADIUS ∨ purpose = ShapeEditorConstants.DRAG) :
    ∃ cp : Placemark Attr,
      createControlPoint controlPoints attributes purpose index = controlPoints ++ [cp]
      ∧ (createControlPoint controlPoints attributes purpose index).length
          = controlPoints.length + 1
      ∧ cp.altitudeMode = AltitudeMode.clampToGround
      ∧ cp.position = ⟨0, 0⟩
      ∧ cp.userProperties.purpose = some purpose
      ∧ (cp.userProperties.purpose = some ShapeEditorConstants.LOCATION
          ∨ cp.userProperties.purpose = some ShapeEditorConstants.ROTATION
          ∨ cp.userProperties.purpose = some ShapeEditorConstants.WIDTH
          ∨ cp.userProperties.purpose = some ShapeEditorConstants.HEIGHT
          ∨ cp.userProperties.purpose = some ShapeEditorConstants.RADIUS
          ∨ cp.userProperties.purpose = some ShapeEditorConstants.DRAG)
      ∧ cp.userProperties.index = index
      ∧ ((∃ i, index = some i) ↔ cp.userProperties.index ≠ none) := by
  refine ⟨⟨⟨0, 0⟩, false, attributes, .clampToGround, ⟨some purpose, index⟩⟩,
    rfl, by simp [createControlPoint], rfl, rfl, rfl, ?_, rfl, ?_⟩
  · rcases hp with h | h | h | h | h | h <;> rw [h] <;> simp
  · constructor
    · rintro ⟨i, hi⟩
      simp [hi]
    · intro hne
      cases index with
      | none => exact absurd rfl hne
      | some i => exact ⟨i, rfl⟩

/-- The C9 theorem applied to a concrete call: an empty control-point
array, the location purpose, and index 3. -/
theorem createControlPoint_spec_witness :
    ∃ cp : Placemark Unit,
      createControlPoint ([] : List (Placemark Unit)) () ShapeEditorConstants.LOCATION (some 3)
        = [] ++ [cp]
      ∧ cp.userProperties.index = some 3 := by
  obtain ⟨cp, h1, _, _, _, _, _, h7, _⟩ :=
    createControlPoint_spec ([] : List (Placemark Unit)) () ShapeEditorConstants.LOCATION
      (some 3) (Or.inl rfl)
  exact ⟨cp, h1, h7⟩

/-- The JavaScript `Number.MAX_VALUE`, the initial best distance of the
edge scan: `(2 - 2^-52) * 2^1023`. -/
def maxValue : ℝ := 2 ^ 1024 - 2 ^ 971

/-- The cartesian point of the picked terrain position
(`globe.computePointFromPosition(lat, lon, altitude, ...)`). -/
def pickedPoint (g : Globe) (terrainPosition : Position) (altitude : ℝ) : Vec3 :=
  g.toPoint terrainPosition.latitude terrainPosition.longitude altitude

/-- The first endpoint of edge `i` (1-based): `locations[i - 1]` converted
through the `globe` argument. -/
def edgePointA (g : Globe) (altitude : ℝ) (locations : List Location) (i : ℕ) : Vec3 :=
  g.toPoint (locations.getD (i - 1) ⟨0, 0⟩).latitude
    (locations.getD (i - 1) ⟨0, 0⟩).longitude altitude

/-- The second endpoint of edge `i`: `locations[i == locations.length ? 0 : i]`
converted through `this._worldWindow.globe`. -/
def edgePointB (gw : Globe) (altitude : ℝ) (locations : List Location) (i : ℕ) : Vec3 :=
  gw.toPoint (locations.getD (if i = locations.length then 0 else i) ⟨0, 0⟩).latitude
    (locations.getD (if i = locations.length then 0 else i) ⟨0, 0⟩).longitude altitude

/-- The nearest point on edge `i` to the picked point. -/
def pointOnEdge (g gw : Globe) (altitude : ℝ) (locations : List Location)
    (picked : Vec3) (i : ℕ) : Vec3 :=
  nearestPointOnSegment (edgePointA g altitude locations i)
    (edgePointB gw altitude locations i) picked

/-- The distance from the picked point to the nearest point on edge `i`. -/
def edgeDist (g gw : Globe) (altitude : ℝ) (locations : List Location)
    (picked : Vec3) (i : ℕ) : ℝ :=
  (pointOnEdge g gw altitude locations picked i).distanceTo picked

/-- The edge scan of `addNewControlPoint`: walks the edge indices in order,
skipping the indices the source `continue`s over, and keeps the nearest
point, its segment index, and its distance, updating only on a strictly
smaller distance. -/
def scanLoop (pt : ℕ → Vec3) (d : ℕ → ℝ) (skip : ℕ → Bool) :
    List ℕ → Option (Vec3 × ℕ) × ℝ → Option (Vec3 × ℕ) × ℝ
  | [], acc => acc
  | i :: rest, acc =>
      if skip i = true then scanLoop pt d skip rest acc
      else if d i < acc.2 then scanLoop pt d skip rest (some (pt i, i), d i)
      else scanLoop pt d skip rest acc

/-- addNewControlPoint (BaseSurfaceEditorFragment.js, lines 311-375): scans
edges `1 .. locations.length` (the index `locations.length` denotes the
closing segment and is skipped unless the shape is a polygon), selects the
edge whose nearest point is closest to the picked point, and inserts the
corresponding location — appended when the winning edge is the closing
segment, spliced in at the edge index otherwise.  The first endpoint goes
through the `globe` argument and the second through the window's globe
(`gw`), exactly as in the source. -/
def addNewControlPoint (isPolygon : Bool) (g gw : Globe) (terrainPosition : Position)
    (altitude : ℝ) (locations : List Location) : List Location :=
  let picked := pickedPoint g terrainPosition altitude
  let res := scanLoop (pointOnEdge g gw altitude locations picked)
      (edgeDist g gw altitude locations picked)
      (fun i => !isPolygon && i == locations.length)
      (List.range' 1 locations.length) (none, maxValue)
  match res.1 with
  | none => locations
  | some (np, k) =>
      let nearestLocation := (g.fromPoint np).toLocation
      if k = locations.length then locations ++ [nearestLocation]
      else locations.insertIdx k nearestLocation

/-- When no unskipped index improves on the accumulator's distance, the
scan returns the accumulator unchanged. -/
lemma scanLoop_stable (pt : ℕ → Vec3) (d : ℕ → ℝ) (skip : ℕ → Bool) :
    ∀ (L : List ℕ) (acc : Option (Vec3 × ℕ) × ℝ),
      (∀ i ∈ L, skip i = false → acc.2 ≤ d i) →
      scanLoop pt d skip L acc = acc := by
  intro L
  induction L with
  | nil => intro acc _; rfl
  | cons i rest ih =>
    intro acc h
    by_cases hsk : skip i = true
    · simp only [scanLoop, if_pos hsk]
      exact ih acc (fun j hj hjs => h j (List.mem_cons_of_mem i hj) hjs)
    · have hskf : skip i = false := Bool.eq_false_iff.mpr hsk
      have hge : ¬ d i < acc.2 := not_lt.mpr (h i (List.mem_cons_self i rest) hskf)
      simp only [scanLoop, if_neg hsk, if_neg hge]
      exact ih acc (fun j hj hjs => h j (List.mem_cons_of_mem i hj) hjs)

/-- When some unskipped index of the scanned range improves on the starting
distance, the scan returns the first-found minimum: an unskipped index `k`
whose distance is minimal among the scanned unskipped indices and strictly
smaller than the distance of every earlier unskipped index. -/
lemma scanLoop_improve (pt : ℕ → Vec3) (d : ℕ → ℝ) (skip : ℕ → Bool) :
    ∀ (n a : ℕ) (b0 : Option (Vec3 × ℕ)) (bd0 : ℝ),
      (∃ i ∈ List.range' a n, skip i = false ∧ d i < bd0) →
      ∃ k ∈ List.range' a n, skip k = false ∧ d k < bd0
        ∧ scanLoop pt d skip (List.range' a n) (b0, bd0) = (some (pt k, k), d k)
        ∧ (∀ j ∈ List.range' a n, skip j = false → d k ≤ d j)
        ∧ (∀ j ∈ List.range' a n, skip j = false → j < k → d k < d j) := by
  intro n
  induction n with
  | zero =>
    rintro a b0 bd0 ⟨i, hi, -, -⟩
    simp [List.range'] at hi
  | succ m ih =>
    rintro a b0 bd0 ⟨i, hi, hsk, hd⟩
    rw [List.range'_succ a m 1] at hi ⊢
    by_cases hska : skip a = true
    · -- the head is skipped: the improving index lies in the tail
      have hiR : i ∈ List.range' (a + 1) m := by
        rcases List.mem_cons.mp hi with rfl | h
        · rw [hsk] at hska
          exact absurd hska (by simp)
        · exact h
      obtain ⟨k, hk, hks, hkd, heq, hmin, hstrict⟩ := ih (a + 1) b0 bd0 ⟨i, hiR, hsk, hd⟩
      refine ⟨k, List.mem_cons_of_mem a hk, hks, hkd, ?_, ?_, ?_⟩
      · simp only [scanLoop, if_pos hska]
        exact heq
      · intro j hj hjs
        rcases List.mem_cons.mp hj with rfl | hjR
        · rw [hjs] at hska
          exact absurd hska (by simp)
        · exact hmin j hjR hjs
      · intro j hj hjs hjk
        rcases List.mem_cons.mp hj with rfl | hjR
        · rw [hjs] at hska
          exact absurd hska (by simp)
        · exact hstrict j hjR hjs hjk
    · have hskaf : skip a = false := Bool.eq_false_iff.mpr hska
      by_cases hda : d a < bd0
      · -- the head improves: it becomes the running best
        by_cases himp : ∃ j ∈ List.range' (a + 1) m, skip j = false ∧ d j < d a
        · -- the tail improves further
          obtain ⟨k, hk, hks, hkd, heq, hmin, hstrict⟩ :=
            ih (a + 1) (some (pt a, a)) (d a) himp
          refine ⟨k, List.mem_cons_of_mem a hk, hks, lt_trans hkd hda, ?_, ?_, ?_⟩
          · simp only [scanLoop, if_neg hska, if_pos hda]
            exact heq
          · intro j hj hjs
            rcases List.mem_cons.mp hj with rfl | hjR
            · exact le_of_lt hkd
            · exact hmin j hjR hjs
          · intro j hj hjs hjk
            rcases List.mem_cons.mp hj with rfl | hjR
            · exact hkd
            · exact hstrict j hjR hjs hjk
        · -- the head is the minimum and the first one found
          push_neg at himp
          refine ⟨a, List.mem_cons_self a _, hskaf, hda, ?_, ?_, ?_⟩
          · simp only [scanLoop, if_neg hska, if_pos hda]
            exact scanLoop_stable pt d skip (List.range' (a + 1) m) (some (pt a, a), d a)
              (fun j hj hjs => himp j hj hjs)
          · intro j hj hjs
            rcases List.mem_cons.mp hj with rfl | hjR
            · exact le_refl _
            · exact himp j hjR hjs
          · intro j hj hjs hja
            rcases List.mem_cons.mp hj with rfl | hjR
            · exact absurd hja (lt_irrefl j)
            · have := (List.mem_range'_1.mp hjR).1
              omega
      · -- the head does not improve: the accumulator passes through
        have hiR : i ∈ List.range' (a + 1) m := by
          rcases List.mem_cons.mp hi with rfl | h
          · exact absurd hd hda
          · exact h
        obtain ⟨k, hk, hks, hkd, heq, hmin, hstrict⟩ := ih (a + 1) b0 bd0 ⟨i, hiR, hsk, hd⟩
        have hak : d k < d a := lt_of_lt_of_le hkd (not_lt.mp hda)
        refine ⟨k, List.mem_cons_of_mem a hk, hks, hkd, ?_, ?_, ?_⟩
        · simp only [scanLoop, if_neg hska, if_neg hda]
          exact heq
        · intro j hj hjs
          rcases List.mem_cons.mp hj with rfl | hjR
          · exact le_of_lt hak
          · exact hmin j hjR hjs
        · intro j hj hjs hjk
          rcases List.mem_cons.mp hj with rfl | hjR
          · exact hak
          · exact hstrict j hjR hjs hjk

/-- The skip test of the edge scan passes an index exactly when the shape
is a polygon or the index is not the closing segment. -/
lemma skip_eq_false_iff (isPolygon : Bool) (len i : ℕ) :
    ((!isPolygon && i == len) = false) ↔ (isPolygon = true ∨ i ≠ len) := by
  cases isPolygon <;> simp

/-- C3. With at least one edge to scan (at least one location for a
polygon, at least two otherwise, so the closing-segment skip leaves an
edge) and every scanned edge distance below `Number.MAX_VALUE`, the scan
visits every edge — including the closing one only for polygons — and
selects an edge index `k` whose nearest-point distance is minimal among the
scanned edges, where strict-less-than comparison makes the first-found
minimum win on ties (every earlier scanned edge has a strictly larger
distance); exactly one vertex is inserted: appended at the end when `k` is
the closing segment, spliced in at index `k` (immediately after the edge's
first endpoint `locations[k-1]`) otherwise, so the boundary grows by
exactly one. -/
theorem addNewControlPoint_spec (isPolygon : Bool) (g gw : Globe)
    (terrainPosition : Position) (altitude : ℝ) (locations : List Location)
    (hn : 1 ≤ locations.length)
    (hn2 : isPolygon = false → 2 ≤ locations.length)
    (hmax : ∀ i ∈ List.range' 1 locations.length,
        (isPolygon = true ∨ i ≠ locations.length) →
        edgeDist g gw altitude locations (pickedPoint g terrainPosition altitude) i
          < maxValue) :
    ∃ k ∈ List.range' 1 locations.length,
      (isPolygon = true ∨ k ≠ locations.length)
      ∧ (∀ j ∈ List.range' 1 locations.length,
          (isPolygon = true ∨ j ≠ locations.length) →
          edgeDist g gw altitude locations (pickedPoint g terrainPosition altitude) k
            ≤ edgeDist g gw altitude locations (pickedPoint g terrainPosition altitude) j)
      ∧ (∀ j ∈ List.range' 1 locations.length,
          (isPolygon = true ∨ j ≠ locations.length) → j < k →
          edgeDist g gw altitude locations (pickedPoint g terrainPosition altitude) k
            < edgeDist g gw altitude locations (pickedPoint g terrainPosition altitude) j)
      ∧ addNewControlPoint isPolygon g gw terrainPosition altitude locations
          = (if k = locations.length
             then locations ++ [(g.fromPoint (pointOnEdge g gw altitude locations
                 (pickedPoint g terrainPosition altitude) k)).toLocation]
             else locations.insertIdx k ((g.fromPoint (pointOnEdge g gw altitude locations
                 (pickedPoint g terrainPosition altitude) k)).toLocation))
      ∧ (addNewControlPoint isPolygon g gw terrainPosition altitude locations).length
          = locations.length + 1 := by
  have h1mem : 1 ∈ List.range' 1 locations.length :=
    List.mem_range'_1.mpr ⟨le_refl 1, by omega⟩
  have h1scan : (isPolygon = true ∨ (1:ℕ) ≠ locations.length) := by
    cases hp : isPolygon with
    | false =>
      have := hn2 hp
      right
      omega
    | true => exact Or.inl rfl
  have h1skip : ((!isPolygon && (1:ℕ) == locations.length) = false) :=
    (skip_eq_false_iff isPolygon locations.length 1).mpr h1scan
  obtain ⟨k, hk, hks, hkd, heq, hmin, hstrict⟩ :=
    scanLoop_improve
      (pointOnEdge g gw altitude locations (pickedPoint g terrainPosition altitude))
      (edgeDist g gw altitude locations (pickedPoint g terrainPosition altitude))
      (fun i => !isPolygon && i == locations.length)
      locations.length 1 none maxValue
      ⟨1, h1mem, h1skip, hmax 1 h1mem h1scan⟩
  have hks2 : isPolygon = true ∨ k ≠ locations.length :=
    (skip_eq_false_iff isPolygon locations.length k).mp hks
  have hkle : k ≤ locations.length := by
    have := (List.mem_range'_1.mp hk).2
    omega
  have hres : addNewControlPoint isPolygon g gw terrainPosition altitude locations
      = if k = locations.length
        then locations ++ [(g.fromPoint (pointOnEdge g gw altitude locations
            (pickedPoint g terrainPosition altitude) k)).toLocation]
        else locations.insertIdx k ((g.fromPoint (pointOnEdge g gw altitude locations
            (pickedPoint g terrainPosition altitude) k)).toLocation) := by
    simp only [addNewControlPoint]
    rw [heq]
  refine ⟨k, hk, hks2, ?_, ?_, hres, ?_⟩
  · intro j hj hjs
    exact hmin j hj ((skip_eq_false_iff isPolygon locations.length j).mpr hjs)
  · intro j hj hjs hjk
    exact hstrict j hj ((skip_eq_false_iff isPolygon locations.length j).mpr hjs) hjk
  · rw [hres]
    by_cases hkl : k = locations.length
    · rw [if_pos hkl]
      simp
    · rw [if_neg hkl]
      exact List.length_insertIdx k locations (by omega)

/-- The four corners of a unit square, used to exercise the vertex
insertion theorem. -/
def squareBoundary : List Location := [⟨0, 0⟩, ⟨0, 1⟩, ⟨1, 1⟩, ⟨1, 0⟩]

/-- The JavaScript `Number.MAX_VALUE` exceeds 1. -/
lemma one_lt_maxValue : (1:ℝ) < maxValue := by
  have hsplit : maxValue = 2 ^ 971 * ((2:ℝ) ^ 53 - 1) := by
    simp only [maxValue]
    rw [show (1024 : ℕ) = 971 + 53 by norm_num, pow_add]
    ring
  have h971 : (1:ℝ) ≤ 2 ^ 971 := one_le_pow₀ (by norm_num)
  have h53 : (2:ℝ) ≤ 2 ^ 53 - 1 := by norm_num
  rw [hsplit]
  nlinarith

/-- The square root of a subunit quantity stays below `Number.MAX_VALUE`. -/
lemma sqrt_lt_maxValue (q : ℝ) (h : q ≤ 1) : Real.sqrt q < maxValue :=
  lt_of_le_of_lt (le_trans (Real.sqrt_le_sqrt h) (le_of_eq Real.sqrt_one)) one_lt_maxValue

/-- The nearest-point distance from the picked point `(1/4, 1/2, 0)` to the
left edge of the unit square. -/
lemma square_edge1 :
    edgeDist identityGlobe identityGlobe 0 squareBoundary ⟨1/4, 1/2, 0⟩ 1
      = Real.sqrt (1/16) := by
  simp only [edgeDist, pointOnEdge, edgePointA, edgePointB, nearestPointOnSegment,
    squareBoundary, identityGlobe, List.getD, Vec3.subtract, Vec3.normalize, Vec3.divide,
    Vec3.magnitude, Vec3.dot, Vec3.fromLine, Vec3.distanceTo]
  norm_num [Real.sqrt_one]

/-- The nearest-point distance from the picked point to the top edge. -/
lemma square_edge2 :
    edgeDist identityGlobe identityGlobe 0 squareBoundary ⟨1/4, 1/2, 0⟩ 2
      = Real.sqrt (1/4) := by
  simp only [edgeDist, pointOnEdge, edgePointA, edgePointB, nearestPointOnSegment,
    squareBoundary, identityGlobe, List.getD, Vec3.subtract, Vec3.normalize, Vec3.divide,
    Vec3.magnitude, Vec3.dot, Vec3.fromLine, Vec3.distanceTo]
  norm_num [Real.sqrt_one]

/-- The nearest-point distance from the picked point to the right edge. -/
lemma square_edge3 :
    edgeDist identityGlobe identityGlobe 0 squareBoundary ⟨1/4, 1/2, 0⟩ 3
      = Real.sqrt (9/16) := by
  simp only [edgeDist, pointOnEdge, edgePointA, edgePointB, nearestPointOnSegment,
    squareBoundary, identityGlobe, List.getD, Vec3.subtract, Vec3.normalize, Vec3.divide,
    Vec3.magnitude, Vec3.dot, Vec3.fromLine, Vec3.distanceTo]
  norm_num [Real.sqrt_one]

/-- The nearest-point distance from the picked point to the closing edge. -/
lemma square_edge4 :
    edgeDist identityGlobe identityGlobe 0 squareBoundary ⟨1/4, 1/2, 0⟩ 4
      = Real.sqrt (1/4) := by
  simp only [edgeDist, pointOnEdge, edgePointA, edgePointB, nearestPointOnSegment,
    squareBoundary, identityGlobe, List.getD, Vec3.subtract, Vec3.normalize, Vec3.divide,
    Vec3.magnitude, Vec3.dot, Vec3.fromLine, Vec3.distanceTo]
  norm_num [Real.sqrt_one]

/-- The C3 theorem applied to the unit square as a polygon with a picked
point near the left edge: the boundary grows by exactly one vertex. -/
theorem addNewControlPoint_spec_witness :
    (addNewControlPoint true identityGlobe identityGlobe ⟨1/4, 1/2, 0⟩ 0
        squareBoundary).length = squareBoundary.length + 1 := by
  have hpicked : pickedPoint identityGlobe ⟨1/4, 1/2, 0⟩ 0 = ⟨1/4, 1/2, 0⟩ := by
    simp [pickedPoint, identityGlobe]
  obtain ⟨k, hk, hks, hmin, hstrict, hres, hlen⟩ :=
    addNewControlPoint_spec true identityGlobe identityGlobe ⟨1/4, 1/2, 0⟩ 0 squareBoundary
      (by simp [squareBoundary])
      (fun h => absurd h (by simp))
      (by
        intro i hi _
        have hi4 : i = 1 ∨ i = 2 ∨ i = 3 ∨ i = 4 := by
          have h := List.mem_range'_1.mp hi
          simp only [squareBoundary, List.length_cons, List.length_nil] at h
          omega
        rw [hpicked]
        rcases hi4 with rfl | rfl | rfl | rfl
        · rw [square_edge1]
          exact sqrt_lt_maxValue (1/16) (by norm_num)
        · rw [square_edge2]
          exact sqrt_lt_maxValue (1/4) (by norm_num)
        · rw [square_edge3]
          exact sqrt_lt_maxValue (9/16) (by norm_num)
        · rw [square_edge4]
          exact sqrt_lt_maxValue (1/4) (by norm_num))
  exact hlen

/-- Modelled from the spec: the great-circle collaborator of `Location`
(`greatCircleAzimuth`, `greatCircleDistance`, `greatCircleLocation`),
absent from this snapshot; the destination function takes the start, an
azimuth, and a distance and produces the reached location. -/
structure GreatCircle where
  azimuth : Location → Location → ℝ
  distance : Location → Location → ℝ
  destination : Location → ℝ → ℝ → Location

/-- All vertices of a boundary, ring structure flattened. -/
def Boundary.vertices : Boundary → List Location
  | .flat ls => ls
  | .ringed rr => rr.flatten

/-- Applying a function to every vertex of a boundary, preserving the ring
structure. -/
def Boundary.mapLocs (f : Location → Location) : Boundary → Boundary
  | .flat ls => .flat (ls.map f)
  | .ringed rr => .ringed (rr.map (List.map f))

/-- The rotation delta of a drag: the azimuth from the center to the
current position minus the azimuth from the center to the previous one. -/
def deltaOf (gc : GreatCircle) (c : Location) (terrainPosition previousPosition : Position) : ℝ :=
  gc.azimuth c terrainPosition.toLocation - gc.azimuth c previousPosition.toLocation

/-- rotateLocations (BaseSurfaceEditorFragment.js, lines 445-470): computes
the center, derives the delta heading from the previous and current drag
positions, rewrites every vertex (ring-aware, with the same dispatch as
`getCenter`) to its azimuth-plus-delta at its original distance from the
center, and returns the delta heading.  A NaN center (see `getCenter`) or
the ringed fall-through that reads coordinates of ring arrays is modelled
as `none`. -/
def rotateLocations (gc : GreatCircle) (g : Globe)
    (terrainPosition previousPosition : Position) (b : Boundary) :
    Option (Boundary × ℝ) :=
  match getCenter g b with
  | none => none
  | some center =>
      let c := center.toLocation
      let previousHeading := gc.azimuth c previousPosition.toLocation
      let deltaHeading := gc.azimuth c terrainPosition.toLocation - previousHeading
      let rot := fun (l : Location) =>
        gc.destination c (gc.azimuth c l + deltaHeading) (gc.distance c l)
      match b with
      | .ringed (r :: rs) =>
          if 2 < r.length then some (.ringed ((r :: rs).map (List.map rot)), deltaHeading)
          else if 2 ≤ (r :: rs).length then none
          else some (.ringed [r], deltaHeading)
      | .ringed [] => some (.ringed [], deltaHeading)
      | .flat ls =>
          if 2 ≤ ls.length then some (.flat (ls.map rot), deltaHeading)
          else some (.flat ls, deltaHeading)

/-- A boundary whose center is defined is either a flat sequence of at
least two locations or a ringed sequence whose first ring has more than
two vertices. -/
lemma getCenter_some_shape (g : Globe) (b : Boundary) (ctr : Position)
    (hc : getCenter g b = some ctr) :
    (∃ ls, b = Boundary.flat ls ∧ 2 ≤ ls.length) ∨
    (∃ r rs, b = Boundary.ringed (r :: rs) ∧ 2 < r.length) := by
  cases b with
  | flat ls =>
    left
    refine ⟨ls, rfl, ?_⟩
    by_contra hlen
    simp only [getCenter, getCenterAccum] at hc
    rw [if_neg hlen] at hc
    simp at hc
  | ringed rr =>
    cases rr with
    | nil => simp [getCenter, getCenterAccum] at hc
    | cons r rs =>
      right
      refine ⟨r, rs, rfl, ?_⟩
      by_contra hlen
      simp only [getCenter, getCenterAccum] at hc
      rw [if_neg hlen] at hc
      by_cases h2 : 2 ≤ (r :: rs).length
      · rw [if_pos h2] at hc
        exact Option.noConfusion hc
      · rw [if_neg h2] at hc
        simp at hc

/-- C4. When the center of the boundary is defined and the great-circle
collaborator satisfies its round-trip laws at that center (the destination
at the azimuth and distance of a location is that location, and the
distance of a destination is the requested distance), `rotateLocations`
returns the delta heading — the azimuth difference between the current and
previous drag positions — and rewrites every vertex, ring-aware, to its
original azimuth plus the delta at its original distance from the center,
so every vertex's distance from the center is preserved; in particular
with the current position equal to the previous one the delta is zero and
the boundary is returned unchanged. -/
theorem rotateLocations_spec (gc : GreatCircle) (g : Globe)
    (terrainPosition previousPosition : Position) (b : Boundary) (ctr : Position)
    (hc : getCenter g b = some ctr)
    (hround : ∀ l : Location,
        gc.destination ctr.toLocation (gc.azimuth ctr.toLocation l)
          (gc.distance ctr.toLocation l) = l)
    (hdist : ∀ (h d : ℝ),
        gc.distance ctr.toLocation (gc.destination ctr.toLocation h d) = d) :
    ∃ b2,
      rotateLocations gc g terrainPosition previousPosition b
        = some (b2, deltaOf gc ctr.toLocation terrainPosition previousPosition)
      ∧ b2 = b.mapLocs (fun l => gc.destination ctr.toLocation
          (gc.azimuth ctr.toLocation l
            + deltaOf gc ctr.toLocation terrainPosition previousPosition)
          (gc.distance ctr.toLocation l))
      ∧ (∀ l ∈ b.vertices,
          gc.distance ctr.toLocation (gc.destination ctr.toLocation
            (gc.azimuth ctr.toLocation l
              + deltaOf gc ctr.toLocation terrainPosition previousPosition)
            (gc.distance ctr.toLocation l))
            = gc.distance ctr.toLocation l)
      ∧ (terrainPosition = previousPosition →
          rotateLocations gc g terrainPosition previousPosition b = some (b, 0)) := by
  rcases getCenter_some_shape g b ctr hc with ⟨ls, rfl, hlen⟩ | ⟨r, rs, rfl, hlen⟩
  · refine ⟨Boundary.flat (ls.map (fun l => gc.destination ctr.toLocation
        (gc.azimuth ctr.toLocation l
          + deltaOf gc ctr.toLocation terrainPosition previousPosition)
        (gc.distance ctr.toLocation l))), ?_, rfl, ?_, ?_⟩
    · simp only [rotateLocations, hc, deltaOf]
      rw [if_pos hlen]
    · intro l _
      exact hdist _ _
    · intro heq
      subst heq
      simp only [rotateLocations, hc]
      rw [if_pos hlen]
      have h1 : ∀ l ∈ ls, gc.destination ctr.toLocation
          (gc.azimuth ctr.toLocation l
            + (gc.azimuth ctr.toLocation terrainPosition.toLocation
              - gc.azimuth ctr.toLocation terrainPosition.toLocation))
          (gc.distance ctr.toLocation l) = id l := fun l _ => by
        rw [sub_self, add_zero]
        exact hround l
      have hmap : ls.map (fun l => gc.destination ctr.toLocation
          (gc.azimuth ctr.toLocation l
            + (gc.azimuth ctr.toLocation terrainPosition.toLocation
              - gc.azimuth ctr.toLocation terrainPosition.toLocation))
          (gc.distance ctr.toLocation l)) = ls := by
        rw [List.map_congr_left h1, List.map_id]
      rw [hmap, sub_self]
  · refine ⟨Boundary.ringed ((r :: rs).map (List.map (fun l => gc.destination ctr.toLocation
        (gc.azimuth ctr.toLocation l
          + deltaOf gc ctr.toLocation terrainPosition previousPosition)
        (gc.distance ctr.toLocation l)))), ?_, rfl, ?_, ?_⟩
    · simp only [rotateLocations, hc, deltaOf]
      rw [if_pos hlen]
    · intro l _
      exact hdist _ _
    · intro heq
      subst heq
      simp only [rotateLocations, hc]
      rw [if_pos hlen]
      have h1 : ∀ l : Location, gc.destination ctr.toLocation
          (gc.azimuth ctr.toLocation l
            + (gc.azimuth ctr.toLocation terrainPosition.toLocation
              - gc.azimuth ctr.toLocation terrainPosition.toLocation))
          (gc.distance ctr.toLocation l) = l := fun l => by
        rw [sub_self, add_zero]
        exact hround l
      have h2 : ∀ ring ∈ r :: rs, List.map (fun l => gc.destination ctr.toLocation
          (gc.azimuth ctr.toLocation l
            + (gc.azimuth ctr.toLocation terrainPosition.toLocation
              - gc.azimuth ctr.toLocation terrainPosition.toLocation))
          (gc.distance ctr.toLocation l)) ring = id ring := fun ring _ => by
        rw [List.map_congr_left (fun l _ => h1 l)]
        simp
      have hmap : (r :: rs).map (List.map (fun l => gc.destination ctr.toLocation
          (gc.azimuth ctr.toLocation l
            + (gc.azimuth ctr.toLocation terrainPosition.toLocation
              - gc.azimuth ctr.toLocation terrainPosition.toLocation))
          (gc.distance ctr.toLocation l))) = r :: rs := by
        rw [List.map_congr_left h2, List.map_id]
      rw [hmap, sub_self]

/-- Modelled from the spec only as a law-abiding stand-in: a translation
geometry whose azimuth is the longitude offset, whose distance is the
latitude offset, and whose destination adds them back; it satisfies the
round-trip laws exactly and exercises the rotation theorem. -/
def shiftGreatCircle : GreatCircle :=
  ⟨fun c l => l.longitude - c.longitude,
   fun c l => l.latitude - c.latitude,
   fun c h d => ⟨c.latitude + d, c.longitude + h⟩⟩

/-- The C4 theorem applied to a concrete two-vertex boundary with a
concrete drag on the identity globe. -/
theorem rotateLocations_spec_witness :
    ∃ b2,
      rotateLocations shiftGreatCircle identityGlobe ⟨0, 1, 0⟩ ⟨0, 0, 0⟩
          (Boundary.flat [⟨0, 0⟩, ⟨2, 0⟩])
        = some (b2, deltaOf shiftGreatCircle (Position.toLocation ⟨1, 0, 0⟩) ⟨0, 1, 0⟩ ⟨0, 0, 0⟩)
      ∧ (∀ l ∈ (Boundary.flat [(⟨0, 0⟩ : Location), ⟨2, 0⟩]).vertices,
          shiftGreatCircle.distance (Position.toLocation ⟨1, 0, 0⟩)
            (shiftGreatCircle.destination (Position.toLocation ⟨1, 0, 0⟩)
              (shiftGreatCircle.azimuth (Position.toLocation ⟨1, 0, 0⟩) l
                + deltaOf shiftGreatCircle (Position.toLocation ⟨1, 0, 0⟩) ⟨0, 1, 0⟩ ⟨0, 0, 0⟩)
              (shiftGreatCircle.distance (Position.toLocation ⟨1, 0, 0⟩) l))
            = shiftGreatCircle.distance (Position.toLocation ⟨1, 0, 0⟩) l) := by
  have hc : getCenter identityGlobe (Boundary.flat [⟨0, 0⟩, ⟨2, 0⟩])
      = some ⟨1, 0, 0⟩ := by
    simp only [getCenter, getCenterAccum, accumFlat, locPoint, identityGlobe]
    norm_num [Vec3.add, Vec3.divide]
  obtain ⟨b2, h1, _, h3, _⟩ :=
    rotateLocations_spec shiftGreatCircle identityGlobe ⟨0, 1, 0⟩ ⟨0, 0, 0⟩
      (Boundary.flat [⟨0, 0⟩, ⟨2, 0⟩]) ⟨1, 0, 0⟩ hc
      (fun l => by
        simp only [shiftGreatCircle, Position.toLocation]
        ext <;> ring)
      (fun h d => by
        simp only [shiftGreatCircle, Position.toLocation]
        ring)
  exact ⟨b2, h1, h3⟩

end

end WorldWind
